import Mathlib

/-!
Verification of the 3-stage LLM Council orchestration backend.

Texts are modelled as `List Char`.  The Python regular expressions used by
the rank extractor (`\d+\.\s*Response [A-Z]` and `Response [A-Z]`) are
embedded as maximal-munch scanners, which agree with the regex engine's
leftmost, non-overlapping `findall` semantics for these patterns: `\d+` can
never usefully backtrack (the following literal `.` is not a digit) and
`\s*` can never usefully backtrack (the following literal `R` is not a
whitespace character).  `\d` and `\s` are modelled by their ASCII meaning.

Network calls are modelled by oracles: a batch call takes a function from
model identifier to that model's outcome, and the chairman retry loop takes
a function from attempt index to outcome.
-/

/-- Texts are lists of characters. -/
abbrev Str := List Char

/-- Coerce a string literal to the character-list representation. -/
def str (s : String) : Str := s.data

/-- ASCII decimal digit, the model of the regex class `\d`. -/
def pyDigit (c : Char) : Bool := '0' ≤ c && c ≤ '9'

/-- ASCII whitespace, the model of the regex class `\s`. -/
def pySpace (c : Char) : Bool :=
  c = ' ' || c = '\t' || c = '\n' || c = '\r' || c = '\x0b' || c = '\x0c'

/-- The regex character class `[A-Z]`. -/
def upperAZ (c : Char) : Bool := 'A' ≤ c && c ≤ 'Z'

/-- The literal `"Response "` that precedes a label letter in both regexes. -/
def respStr : Str := str "Response "

/-- The literal section marker `"FINAL RANKING:"`. -/
def markerStr : Str := str "FINAL RANKING:"

/-- `isStart p l` is true when `p` is a prefix of `l` (literal text match). -/
def isStart : Str → Str → Bool
  | [], _ => true
  | _ :: _, [] => false
  | p :: ps, c :: cs => p = c && isStart ps cs

/-- First occurrence of a pattern: `splitFirst pat l = some (before, after)`
splits `l` around the first occurrence of `pat`; `none` when `pat` does not
occur.  This models both Python's `pat in text` test and the first two
elements of `text.split(pat)`. -/
def splitFirst (pat : Str) : Str → Option (Str × Str)
  | [] => if pat.isEmpty then some ([], []) else none
  | c :: rest =>
    if isStart pat (c :: rest) then some ([], (c :: rest).drop pat.length)
    else
      match splitFirst pat rest with
      | some (b, a) => some (c :: b, a)
      | none => none

/-- One attempt of the regex `\d+\.\s*Response [A-Z]` anchored at the head of
the input: returns the extracted `Response X` token (the part the source
recovers via `re.search(r'Response [A-Z]', m)`) together with the number of
characters the whole match consumed. -/
def tryNumbered (l : Str) : Option (Str × Nat) :=
  let ds := l.takeWhile pyDigit
  if ds.isEmpty then none
  else
    match l.drop ds.length with
    | '.' :: r1 =>
      let ws := r1.takeWhile pySpace
      let r2 := r1.drop ws.length
      if isStart respStr r2 then
        match r2.drop respStr.length with
        | c :: _ =>
          if upperAZ c then
            some (respStr ++ [c], ds.length + 1 + ws.length + respStr.length + 1)
          else none
        | [] => none
      else none
    | _ => none

theorem tryNumbered_some_pos {l : Str} {t : Str} {k : Nat}
    (h : tryNumbered l = some (t, k)) : 1 ≤ k := by
  unfold tryNumbered at h
  dsimp only at h
  split at h
  · exact absurd h (by simp)
  · split at h
    · split at h
      · split at h
        · split at h
          · simp only [Option.some.injEq, Prod.mk.injEq] at h
            omega
          · exact absurd h (by simp)
        · exact absurd h (by simp)
      · exact absurd h (by simp)
    · exact absurd h (by simp)

/-- Fuel-indexed scanner for `\d+\.\s*Response [A-Z]`; `findNumbered` runs it
with fuel equal to the input length, which is always sufficient because every
match consumes at least one character. -/
def findNumberedF : Nat → Str → List Str
  | 0, _ => []
  | _ + 1, [] => []
  | fuel + 1, c :: rest =>
    match tryNumbered (c :: rest) with
    | some (tok, k) => tok :: findNumberedF fuel ((c :: rest).drop k)
    | none => findNumberedF fuel rest

/-- `re.findall(r'\d+\.\s*Response [A-Z]', l)`, already reduced to the
extracted `Response X` tokens. -/
def findNumbered (l : Str) : List Str := findNumberedF l.length l

theorem findNumberedF_fuel (fuel : Nat) :
    ∀ l : Str, l.length ≤ fuel → findNumberedF fuel l = findNumbered l := by
  induction fuel using Nat.strong_induction_on with
  | _ fuel ih =>
    intro l hl
    match fuel, l with
    | 0, [] => rfl
    | 0, _ :: _ => simp at hl
    | fuel + 1, [] => rfl
    | fuel + 1, c :: rest =>
      simp only [List.length_cons, Nat.add_le_add_iff_right] at hl
      show (match tryNumbered (c :: rest) with
            | some (tok, k) => tok :: findNumberedF fuel ((c :: rest).drop k)
            | none => findNumberedF fuel rest) = findNumbered (c :: rest)
      unfold findNumbered
      show _ = (match tryNumbered (c :: rest) with
            | some (tok, k) => tok :: findNumberedF rest.length ((c :: rest).drop k)
            | none => findNumberedF rest.length rest)
      match htn : tryNumbered (c :: rest) with
      | some (tok, k) =>
        dsimp only
        have hk := tryNumbered_some_pos htn
        have hdl : ((c :: rest).drop k).length ≤ rest.length := by
          simp only [List.length_drop, List.length_cons]; omega
        rw [ih fuel (by omega) _ (le_trans hdl hl),
            ih rest.length (by omega) _ hdl]
      | none =>
        dsimp only
        rw [ih fuel (by omega) _ hl, ih rest.length (by omega) _ le_rfl]

/-- Unfolding equation for `findNumbered` on a nonempty input. -/
theorem findNumbered_cons (c : Char) (rest : Str) :
    findNumbered (c :: rest) =
      match tryNumbered (c :: rest) with
      | some (tok, k) => tok :: findNumbered ((c :: rest).drop k)
      | none => findNumbered rest := by
  show findNumberedF (rest.length + 1) (c :: rest) = _
  show (match tryNumbered (c :: rest) with
        | some (tok, k) => tok :: findNumberedF rest.length ((c :: rest).drop k)
        | none => findNumberedF rest.length rest) = _
  match htn : tryNumbered (c :: rest) with
  | some (tok, k) =>
    dsimp only
    have hk := tryNumbered_some_pos htn
    rw [findNumberedF_fuel]
    simp only [List.length_drop, List.length_cons]; omega
  | none =>
    dsimp only
    rw [findNumberedF_fuel _ _ le_rfl]

/-- One attempt of the regex `Response [A-Z]` anchored at the head of the
input: the matched token together with its length (always 10). -/
def tryBare (l : Str) : Option (Str × Nat) :=
  if isStart respStr l then
    match l.drop respStr.length with
    | c :: _ => if upperAZ c then some (respStr ++ [c], respStr.length + 1) else none
    | [] => none
  else none

theorem tryBare_some_pos {l : Str} {t : Str} {k : Nat}
    (h : tryBare l = some (t, k)) : 1 ≤ k := by
  unfold tryBare at h
  split at h
  · split at h
    · split at h
      · simp only [Option.some.injEq, Prod.mk.injEq] at h
        omega
      · exact absurd h (by simp)
    · exact absurd h (by simp)
  · exact absurd h (by simp)

/-- Fuel-indexed scanner for `Response [A-Z]`; see `findNumberedF`. -/
def findBareF : Nat → Str → List Str
  | 0, _ => []
  | _ + 1, [] => []
  | fuel + 1, c :: rest =>
    match tryBare (c :: rest) with
    | some (tok, k) => tok :: findBareF fuel ((c :: rest).drop k)
    | none => findBareF fuel rest

/-- `re.findall(r'Response [A-Z]', l)`. -/
def findBare (l : Str) : List Str := findBareF l.length l

theorem findBareF_fuel (fuel : Nat) :
    ∀ l : Str, l.length ≤ fuel → findBareF fuel l = findBare l := by
  induction fuel using Nat.strong_induction_on with
  | _ fuel ih =>
    intro l hl
    match fuel, l with
    | 0, [] => rfl
    | 0, _ :: _ => simp at hl
    | fuel + 1, [] => rfl
    | fuel + 1, c :: rest =>
      simp only [List.length_cons, Nat.add_le_add_iff_right] at hl
      show (match tryBare (c :: rest) with
            | some (tok, k) => tok :: findBareF fuel ((c :: rest).drop k)
            | none => findBareF fuel rest) = findBare (c :: rest)
      unfold findBare
      show _ = (match tryBare (c :: rest) with
            | some (tok, k) => tok :: findBareF rest.length ((c :: rest).drop k)
            | none => findBareF rest.length rest)
      match htn : tryBare (c :: rest) with
      | some (tok, k) =>
        dsimp only
        have hk := tryBare_some_pos htn
        have hdl : ((c :: rest).drop k).length ≤ rest.length := by
          simp only [List.length_drop, List.length_cons]; omega
        rw [ih fuel (by omega) _ (le_trans hdl hl),
            ih rest.length (by omega) _ hdl]
      | none =>
        dsimp only
        rw [ih fuel (by omega) _ hl, ih rest.length (by omega) _ le_rfl]

/-- Unfolding equation for `findBare` on a nonempty input. -/
theorem findBare_cons (c : Char) (rest : Str) :
    findBare (c :: rest) =
      match tryBare (c :: rest) with
      | some (tok, k) => tok :: findBare ((c :: rest).drop k)
      | none => findBare rest := by
  show findBareF (rest.length + 1) (c :: rest) = _
  show (match tryBare (c :: rest) with
        | some (tok, k) => tok :: findBareF rest.length ((c :: rest).drop k)
        | none => findBareF rest.length rest) = _
  match htn : tryBare (c :: rest) with
  | some (tok, k) =>
    dsimp only
    have hk := tryBare_some_pos htn
    rw [findBareF_fuel]
    simp only [List.length_drop, List.length_cons]; omega
  | none =>
    dsimp only
    rw [findBareF_fuel _ _ le_rfl]

/-- The `parts[1]` component of `ranking_text.split("FINAL RANKING:")`: the
text between the first occurrence of the marker and the next occurrence (or
the end).  `none` exactly when the marker is absent, i.e. when
`"FINAL RANKING:" in ranking_text` is false. -/
def rankingSectionOf (t : Str) : Option Str :=
  match splitFirst markerStr t with
  | some (_, afterM) =>
    some (match splitFirst markerStr afterM with
          | some (b, _) => b
          | none => afterM)
  | none => none

/-- Embedding of `parse_ranking_from_text` (council.py): marker fast path
with the numbered-list regex, falling back to a bare `Response [A-Z]` scan of
the section, or of the whole text when the marker is absent. -/
def parse_ranking_from_text (ranking_text : Str) : List Str :=
  match rankingSectionOf ranking_text with
  | some sec =>
    let numbered := findNumbered sec
    if numbered.isEmpty then findBare sec else numbered
  | none => findBare ranking_text

/-! ### Model query gateway (openrouter.py) -/

/-- The `message` object of a successful HTTP exchange.  `content` is
`none` when the endpoint returned JSON `null` for the content field;
`thinking = none` models the `thinking` key being absent. -/
structure ApiMessage where
  content : Option Str
  reasoning_details : Option Str
  thinking : Option Str
deriving DecidableEq, Repr

/-- Outcome of one network exchange: transport error, non-success status and
malformed body all collapse to `failure` (query_model returns None). -/
inductive QueryOutcome where
  | failure
  | success (message : ApiMessage)
deriving DecidableEq, Repr

/-- The result dict built by `query_model`: the `content` and
`reasoning_details` keys are always present (their values may be Python
`None`); `thinking` is copied only when present in the message. -/
structure ModelResponse where
  content : Option Str
  reasoning_details : Option Str
  thinking : Option Str
deriving DecidableEq, Repr

/-- Embedding of `query_model` (openrouter.py): a failed exchange yields
`none`, a successful one packages the message fields. -/
def query_model : QueryOutcome → Option ModelResponse
  | .failure => none
  | .success m => some ⟨m.content, m.reasoning_details, m.thinking⟩

/-- Python dict insertion: overwriting an existing key keeps its original
position, a new key is appended. -/
def dictInsert {β : Type} (d : List (Str × β)) (k : Str) (v : β) : List (Str × β) :=
  if k ∈ d.map Prod.fst then d.map (fun p => if p.1 = k then (p.1, v) else p)
  else d ++ [(k, v)]

/-- Embedding of `query_models_parallel` (openrouter.py): one gateway call
per model, results gathered into `{model: response for model, response in
zip(models, responses)}`.  The oracle gives each model's network outcome for
this batch. -/
def query_models_parallel (models : List Str) (oracle : Str → QueryOutcome) :
    List (Str × Option ModelResponse) :=
  models.foldl (fun d m => dictInsert d m (query_model (oracle m))) []

/-! ### Configuration (config.py) -/

def COUNCIL_MODELS : List Str :=
  [str "openai/gpt-5.1", str "google/gemini-3-pro-preview",
   str "anthropic/claude-opus-4.5", str "x-ai/grok-4",
   str "moonshotai/kimi-k2-thinking"]

def CHAIRMAN_MODEL : Str := str "google/gemini-3-pro-preview"

/-! ### Council stages (council.py) -/

/-- Python truthiness of an optional string: `None` and `""` are falsy. -/
def pyTruthy : Option Str → Bool
  | none => false
  | some s => !s.isEmpty

/-- The stage result dicts include the reasoning keys only when truthy;
`none` models the key being absent. -/
def keepTruthy (o : Option Str) : Option Str := if pyTruthy o then o else none

/-- A stage-1 or stage-3 result dict: `{"model": ..., "response": ...}` plus
optional reasoning keys.  `response` holds the Python value
`response.get('content', '')`, whose `''` default is dead (the key is always
present), so the value is `None` exactly when the upstream content was null. -/
structure CouncilResult where
  model : Str
  response : Option Str
  reasoning_details : Option Str
  thinking : Option Str
deriving DecidableEq, Repr

/-- Embedding of `stage1_collect_responses` (council.py): query all council
models in parallel, keep the successful ones in dict iteration order. -/
def stage1_collect_responses (_user_query : Str) (oracle : Str → QueryOutcome) :
    List CouncilResult :=
  (query_models_parallel COUNCIL_MODELS oracle).filterMap fun p =>
    p.2.map fun r =>
      ⟨p.1, r.content, keepTruthy r.reasoning_details, keepTruthy r.thinking⟩

/-- One reviewer's stage-2 submission. -/
structure RankingSubmission where
  model : Str
  ranking : Str
  parsed_ranking : List Str
  reasoning_details : Option Str
  thinking : Option Str
deriving DecidableEq, Repr

/-- The result-formatting loop of `stage2_collect_rankings`.  When a
successful response carries a null content, `full_text` is Python `None` and
`parse_ranking_from_text(None)` raises `TypeError`; that exception is
modelled by `Except.error`. -/
def buildSubmissions : List (Str × Option ModelResponse) →
    Except Unit (List RankingSubmission)
  | [] => .ok []
  | (_, none) :: rest => buildSubmissions rest
  | (m, some r) :: rest =>
    match r.content with
    | none => .error ()
    | some full_text =>
      (buildSubmissions rest).map fun subs =>
        ⟨m, full_text, parse_ranking_from_text full_text,
         keepTruthy r.reasoning_details, keepTruthy r.thinking⟩ :: subs

/-- Embedding of `stage2_collect_rankings` (council.py): anonymize the
stage-1 results with labels `Response A`, `Response B`, … (`chr(65 + i)`),
build the label-to-model mapping, query all council models with the ranking
prompt (the prompt text only feeds the external call) and collect the parsed
submissions. -/
def stage2_collect_rankings (_user_query : Str) (oracle : Str → QueryOutcome)
    (stage1_results : List CouncilResult) :
    Except Unit (List RankingSubmission × List (Str × Str)) :=
  let labels := (List.range stage1_results.length).map fun i => Char.ofNat (65 + i)
  let label_to_model := (labels.zip stage1_results).map fun p =>
    (respStr ++ [p.1], p.2.model)
  match buildSubmissions (query_models_parallel COUNCIL_MODELS oracle) with
  | .ok subs => .ok (subs, label_to_model)
  | .error e => .error e

/-- The chairman retry loop of `stage3_synthesize_final`:
`for attempt in range(2): ... if response is not None: break`.  The oracle
gives the outcome of each attempt; the result records the final response and
the number of attempts actually issued. -/
def chairmanAttempts (oracle : Nat → QueryOutcome) : Option ModelResponse × Nat :=
  match query_model (oracle 0) with
  | some r => (some r, 1)
  | none => (query_model (oracle 1), 2)

/-- Embedding of `stage3_synthesize_final` (council.py): chairman query with
one retry, degraded to a sentinel error result when both attempts fail. -/
def stage3_synthesize_final (_user_query : Str) (_stage1 : List CouncilResult)
    (_stage2 : List RankingSubmission) (oracle : Nat → QueryOutcome) : CouncilResult :=
  match (chairmanAttempts oracle).1 with
  | none =>
    ⟨CHAIRMAN_MODEL, some (str "Error: Unable to generate final synthesis."),
     none, none⟩
  | some r =>
    ⟨CHAIRMAN_MODEL, r.content, keepTruthy r.reasoning_details,
     keepTruthy r.thinking⟩

/-! ### Aggregation (council.py) -/

/-- One consensus entry of `calculate_aggregate_rankings`. -/
structure AggregateRankEntry where
  model : Str
  average_rank : ℚ
  rankings_count : Nat
deriving DecidableEq, Repr

/-- Rounding to two decimal places, half to even, on exact rationals: the
model of Python's `round(x, 2)`. -/
def round2 (q : ℚ) : ℚ :=
  let x := q * 100
  let f : ℤ := ⌊x⌋
  let r := x - (f : ℚ)
  let n : ℤ :=
    if r < 1 / 2 then f
    else if 1 / 2 < r then f + 1
    else if f % 2 = 0 then f else f + 1
  (n : ℚ) / 100

/-- The `model_positions` defaultdict: association list in first-insertion
order, each value the list of appended positions. -/
abbrev PosDict := List (Str × List Nat)

/-- `model_positions[model_name].append(position)`. -/
def addPos : PosDict → Str → Nat → PosDict
  | [], m, p => [(m, [p])]
  | (m', ps) :: d, m, p =>
    if m' = m then (m', ps ++ [p]) :: d else (m', ps) :: addPos d m p

/-- Association-list lookup, the model of Python dict indexing. -/
def lookupA {β : Type} : List (Str × β) → Str → Option β
  | [], _ => none
  | (k, v) :: d, k' => if k = k' then some v else lookupA d k'

/-- The position list recorded for a model (empty when absent). -/
def posOf : PosDict → Str → List Nat
  | [], _ => []
  | (m', ps) :: d, m => if m' = m then ps else posOf d m

/-- The inner loop of `calculate_aggregate_rankings`:
`for position, label in enumerate(parsed_ranking, start=1): if label in
label_to_model: model_positions[label_to_model[label]].append(position)`. -/
def procLabels (ltm : List (Str × Str)) : PosDict → Nat → List Str → PosDict
  | d, _, [] => d
  | d, i, lab :: rest =>
    procLabels ltm
      (match lookupA ltm lab with
       | some m => addPos d m i
       | none => d) (i + 1) rest

/-- The full position-collection pass over the stage-2 submissions, each
re-parsed from its raw `ranking` text. -/
def modelPositions (stage2_results : List RankingSubmission)
    (label_to_model : List (Str × Str)) : PosDict :=
  stage2_results.foldl
    (fun d s => procLabels label_to_model d 1 (parse_ranking_from_text s.ranking)) []

/-- The aggregation loop: one entry per model with a nonempty position list,
mean position rounded to two decimals, in dict iteration order. -/
def aggregateEntries (d : PosDict) : List AggregateRankEntry :=
  d.filterMap fun p =>
    if p.2.isEmpty then none
    else some ⟨p.1, round2 ((p.2.sum : ℚ) / (p.2.length : ℚ)), p.2.length⟩

/-- Sort order of the final `aggregate.sort(key=lambda x: x['average_rank'])`. -/
def aggLe (a b : AggregateRankEntry) : Prop := a.average_rank ≤ b.average_rank

instance : DecidableRel aggLe := fun _ _ => inferInstanceAs (Decidable (_ ≤ _))

instance : IsTotal AggregateRankEntry aggLe := ⟨fun a b => le_total a.average_rank b.average_rank⟩

instance : IsTrans AggregateRankEntry aggLe :=
  ⟨fun _ _ _ h h' => le_trans (a := AggregateRankEntry.average_rank _) h h'⟩

/-- Embedding of `calculate_aggregate_rankings` (council.py).  Python's
`list.sort` is a stable ascending sort by the key; any stable sort by the
same key yields the same list, so stable insertion sort is an exact model. -/
def calculate_aggregate_rankings (stage2_results : List RankingSubmission)
    (label_to_model : List (Str × Str)) : List AggregateRankEntry :=
  List.insertionSort aggLe (aggregateEntries (modelPositions stage2_results label_to_model))

/-- Aggregation as the spec's data-flow description reads: identical except
that each submission's stored `parsed_ranking` field is used instead of
re-parsing the raw critique text. -/
def calculate_aggregate_rankings_stored (stage2_results : List RankingSubmission)
    (label_to_model : List (Str × Str)) : List AggregateRankEntry :=
  List.insertionSort aggLe (aggregateEntries
    (stage2_results.foldl (fun d s => procLabels label_to_model d 1 s.parsed_ranking) []))

/-! ### Full pipeline (council.py) -/

/-- The network environment of one deliberation: per-model outcomes for the
stage-1 batch and the stage-2 batch, and per-attempt outcomes for the
chairman call. -/
structure World where
  stage1 : Str → QueryOutcome
  stage2 : Str → QueryOutcome
  chairman : Nat → QueryOutcome

/-- The metadata dict of a completed deliberation; `none` at the call site
models the empty dict returned on total stage-1 failure. -/
structure DeliberationMetadata where
  label_to_model : List (Str × Str)
  aggregate_rankings : List AggregateRankEntry
deriving DecidableEq, Repr

/-- Embedding of `run_full_council` (council.py). -/
def run_full_council (w : World) (user_query : Str) :
    Except Unit (List CouncilResult × List RankingSubmission × CouncilResult ×
                 Option DeliberationMetadata) :=
  let stage1_results := stage1_collect_responses user_query w.stage1
  if stage1_results.isEmpty then
    .ok ([], [],
         ⟨str "error", some (str "All models failed to respond. Please try again."),
          none, none⟩, none)
  else
    match stage2_collect_rankings user_query w.stage2 stage1_results with
    | .error e => .error e
    | .ok (stage2_results, label_to_model) =>
      let aggregate_rankings := calculate_aggregate_rankings stage2_results label_to_model
      let stage3_result :=
        stage3_synthesize_final user_query stage1_results stage2_results w.chairman
      .ok (stage1_results, stage2_results, stage3_result,
           some ⟨label_to_model, aggregate_rankings⟩)

/-- `enumerate(xs, start=i)`. -/
def enumFrom {α : Type} : Nat → List α → List (Nat × α)
  | _, [] => []
  | i, a :: rest => (i, a) :: enumFrom (i + 1) rest

/-! ### Scanner lemmas -/

theorem isStart_self_append (xs rest : Str) : isStart xs (xs ++ rest) = true := by
  induction xs with
  | nil => rfl
  | cons c xs ih => simp [isStart, ih]

theorem takeWhile_append_stop {p : Char → Bool} {xs : Str} {y : Char}
    (hall : ∀ x ∈ xs, p x = true) (hy : p y = false) (ys : Str) :
    (xs ++ y :: ys).takeWhile p = xs := by
  induction xs with
  | nil => simp [List.takeWhile_cons, hy]
  | cons c xs ih =>
    have hc : p c = true := hall c (by simp)
    simp only [List.cons_append, List.takeWhile_cons, hc, if_true]
    rw [ih fun x hx => hall x (by simp [hx])]

theorem drop_append_len {xs : Str} (ys : Str) (n : Nat) :
    (xs ++ ys).drop (xs.length + n) = ys.drop n := by
  induction xs with
  | nil => simp
  | cons c xs ih => simpa [Nat.succ_add] using ih

theorem respStr_eq : respStr = 'R' :: str "esponse " := rfl

theorem tryNumbered_head_not_digit {c : Char} (l : Str) (hc : pyDigit c = false) :
    tryNumbered (c :: l) = none := by
  simp [tryNumbered, List.takeWhile_cons, hc]

theorem tryNumbered_render {num ws : Str} {c : Char} (rest : Str)
    (hnum : num ≠ []) (hd : ∀ x ∈ num, pyDigit x = true)
    (hws : ∀ x ∈ ws, pySpace x = true) (hc : upperAZ c = true) :
    tryNumbered (num ++ '.' :: (ws ++ (respStr ++ c :: rest))) =
      some (respStr ++ [c], num.length + 1 + ws.length + respStr.length + 1) := by
  have hdot : pyDigit '.' = false := by decide
  have h1 : (num ++ '.' :: (ws ++ (respStr ++ c :: rest))).takeWhile pyDigit = num :=
    takeWhile_append_stop hd hdot _
  have h2 : (num ++ '.' :: (ws ++ (respStr ++ c :: rest))).drop num.length =
      '.' :: (ws ++ (respStr ++ c :: rest)) := List.drop_left _ _
  have hR : pySpace 'R' = false := by decide
  have h3 : (ws ++ (respStr ++ c :: rest)).takeWhile pySpace = ws := by
    rw [respStr_eq, List.cons_append]
    exact takeWhile_append_stop hws hR _
  have h4 : (ws ++ (respStr ++ c :: rest)).drop ws.length = respStr ++ c :: rest :=
    List.drop_left _ _
  have h5 : isStart respStr (respStr ++ c :: rest) = true := isStart_self_append _ _
  have h6 : (respStr ++ c :: rest).drop respStr.length = c :: rest := List.drop_left _ _
  have hne : num.isEmpty = false := by cases num with
    | nil => exact absurd rfl hnum
    | cons a l => rfl
  unfold tryNumbered
  simp only [h1, hne, Bool.false_eq_true, if_false, h2, h3, h4, h5, if_true, h6, hc]

theorem drop_render_entry {num ws : Str} {c : Char} (rest : Str) :
    (num ++ '.' :: (ws ++ (respStr ++ c :: rest))).drop
      (num.length + 1 + ws.length + respStr.length + 1) = rest := by
  have hk : num.length + 1 + ws.length + respStr.length + 1 =
      num.length + (1 + (ws.length + (respStr.length + 1))) := by omega
  rw [hk, drop_append_len, Nat.add_comm 1, List.drop_succ_cons, drop_append_len,
      drop_append_len, List.drop_succ_cons, List.drop_zero]

theorem findNumbered_entry {num ws : Str} {c : Char} (rest : Str)
    (hnum : num ≠ []) (hd : ∀ x ∈ num, pyDigit x = true)
    (hws : ∀ x ∈ ws, pySpace x = true) (hc : upperAZ c = true) :
    findNumbered (num ++ '.' :: (ws ++ (respStr ++ c :: rest))) =
      (respStr ++ [c]) :: findNumbered rest := by
  cases num with
  | nil => exact absurd rfl hnum
  | cons n0 num' =>
    rw [List.cons_append, findNumbered_cons, ← List.cons_append,
        tryNumbered_render rest (by simp) hd hws hc]
    dsimp only
    rw [drop_render_entry]

theorem findNumbered_append_gap {g : Str} (hg : ∀ x ∈ g, pyDigit x = false) (rest : Str) :
    findNumbered (g ++ rest) = findNumbered rest := by
  induction g with
  | nil => rfl
  | cons c g ih =>
    have hc : pyDigit c = false := hg c (by simp)
    rw [List.cons_append, findNumbered_cons, tryNumbered_head_not_digit _ hc]
    exact ih fun x hx => hg x (by simp [hx])

theorem findNumbered_digit_free {g : Str} (hg : ∀ x ∈ g, pyDigit x = false) :
    findNumbered g = [] := by
  rw [← List.append_nil g, findNumbered_append_gap hg]
  rfl

theorem tryBare_head_ne {c : Char} (l : Str) (hc : c ≠ 'R') :
    tryBare (c :: l) = none := by
  have : isStart respStr (c :: l) = false := by
    rw [respStr_eq]
    simp [isStart, Ne.symm hc]
  simp [tryBare, this]

theorem tryBare_render {c : Char} (rest : Str) (hc : upperAZ c = true) :
    tryBare (respStr ++ c :: rest) = some (respStr ++ [c], respStr.length + 1) := by
  have h5 : isStart respStr (respStr ++ c :: rest) = true := isStart_self_append _ _
  have h6 : (respStr ++ c :: rest).drop respStr.length = c :: rest := List.drop_left _ _
  simp only [tryBare, h5, if_true, h6, hc]

theorem findBare_token {c : Char} (rest : Str) (hc : upperAZ c = true) :
    findBare (respStr ++ c :: rest) = (respStr ++ [c]) :: findBare rest := by
  rw [respStr_eq, List.cons_append, findBare_cons, ← List.cons_append, ← respStr_eq,
      tryBare_render rest hc]
  dsimp only
  rw [drop_append_len, List.drop_succ_cons, List.drop_zero]

theorem findBare_append_gap {g : Str} (hg : ∀ x ∈ g, x ≠ 'R') (rest : Str) :
    findBare (g ++ rest) = findBare rest := by
  induction g with
  | nil => rfl
  | cons c g ih =>
    have hc : c ≠ 'R' := hg c (by simp)
    rw [List.cons_append, findBare_cons, tryBare_head_ne _ hc]
    exact ih fun x hx => hg x (by simp [hx])

/-! ### Rendered well-formed ranking sections -/

/-- One entry of a well-formed numbered ranking list, as the spec describes
it: arbitrary digit-free text before the numbering, a nonempty digit
sequence, a period, optional whitespace, then the label token. -/
structure NumEntry where
  gap : Str
  num : Str
  ws : Str
  lab : Char
deriving DecidableEq, Repr

/-- The text of a numbered ranking section followed by trailing text. -/
def renderBody : List NumEntry → Str → Str
  | [], trail => trail
  | e :: es, trail =>
    e.gap ++ (e.num ++ '.' :: (e.ws ++ (respStr ++ e.lab :: renderBody es trail)))

def entryWF (e : NumEntry) : Prop :=
  (∀ x ∈ e.gap, pyDigit x = false) ∧ e.num ≠ [] ∧
    (∀ x ∈ e.num, pyDigit x = true) ∧ (∀ x ∈ e.ws, pySpace x = true) ∧
    upperAZ e.lab = true

instance (e : NumEntry) : Decidable (entryWF e) := by
  unfold entryWF
  infer_instance

theorem findNumbered_renderBody (es : List NumEntry) (trail : Str)
    (hwf : ∀ e ∈ es, entryWF e) (htrail : ∀ x ∈ trail, pyDigit x = false) :
    findNumbered (renderBody es trail) = es.map fun e => respStr ++ [e.lab] := by
  induction es with
  | nil => exact findNumbered_digit_free htrail
  | cons e es ih =>
    obtain ⟨hgap, hnum, hd, hws, hlab⟩ := hwf e (by simp)
    show findNumbered (e.gap ++ _) = _
    rw [findNumbered_append_gap hgap, findNumbered_entry _ hnum hd hws hlab,
        ih fun x hx => hwf x (by simp [hx])]
    rfl

/-- One bare label mention: arbitrary preceding text free of the capital
letter `R`, then the label token. -/
structure BareTok where
  gap : Str
  lab : Char
deriving DecidableEq, Repr

/-- Free text in which label tokens appear at the recorded places. -/
def renderBare : List BareTok → Str → Str
  | [], trail => trail
  | b :: bs, trail => b.gap ++ (respStr ++ b.lab :: renderBare bs trail)

def bareWF (b : BareTok) : Prop := (∀ x ∈ b.gap, x ≠ 'R') ∧ upperAZ b.lab = true

instance (b : BareTok) : Decidable (bareWF b) := by
  unfold bareWF
  infer_instance

theorem findBare_renderBare (bs : List BareTok) (trail : Str)
    (hwf : ∀ b ∈ bs, bareWF b) (htrail : ∀ x ∈ trail, x ≠ 'R') :
    findBare (renderBare bs trail) = bs.map fun b => respStr ++ [b.lab] := by
  induction bs with
  | nil =>
    show findBare trail = []
    rw [← List.append_nil trail, findBare_append_gap htrail]
    rfl
  | cons b bs ih =>
    obtain ⟨hgap, hlab⟩ := hwf b (by simp)
    show findBare (b.gap ++ _) = _
    rw [findBare_append_gap hgap, findBare_token _ hlab,
        ih fun x hx => hwf x (by simp [hx])]
    rfl

/-! ### Claim C1 -/

/-- C1: for every critique text whose `FINAL RANKING:` section (the text the
split places between the first marker occurrence and the next occurrence or
the end) is a well-formed numbered list of label entries — each a digit
sequence, a period, optional whitespace, then a label token, with digit-free
text between entries and after the last — `parse_ranking_from_text` returns
exactly the labels of those entries, in textual order, numbering discarded,
regardless of whether a space follows the numbering period. -/
theorem C1_numbered_section_parse (t : Str) (es : List NumEntry) (trail : Str)
    (hsec : rankingSectionOf t = some (renderBody es trail))
    (hes : es ≠ []) (hwf : ∀ e ∈ es, entryWF e)
    (htrail : ∀ x ∈ trail, pyDigit x = false) :
    parse_ranking_from_text t = es.map fun e => respStr ++ [e.lab] := by
  unfold parse_ranking_from_text
  rw [hsec]
  dsimp only
  rw [findNumbered_renderBody es trail hwf htrail]
  have hne : (es.map fun e => respStr ++ [e.lab]).isEmpty = false := by
    cases es with
    | nil => exact absurd rfl hes
    | cons e es => rfl
  rw [hne]
  simp

def c1Entries : List NumEntry :=
  [⟨str "\n", str "1", str " ", 'C'⟩, ⟨str "\n", str "2", str "", 'A'⟩,
   ⟨str "\n", str "10", str " ", 'B'⟩]

def c1Trail : Str := str "\n\nExtra notes afterwards."

def c1Text : Str :=
  str "Response A is mentioned early and Response A again.\n\nFINAL RANKING:" ++
    renderBody c1Entries c1Trail

/-- Witness for C1 at a concrete critique text mixing spaced, unspaced and
multi-digit numbering. -/
theorem C1_numbered_section_parse_witness :
    parse_ranking_from_text c1Text =
      [str "Response C", str "Response A", str "Response B"] :=
  (C1_numbered_section_parse c1Text c1Entries c1Trail (by decide) (by decide)
    (by decide) (by decide)).trans (by decide)

/-! ### Claim C8 -/

/-- C8: whenever the exact case-sensitive marker `FINAL RANKING:` is absent
(e.g. only a lowercase variant appears), `parse_ranking_from_text` falls back
to scanning the entire text for bare label tokens, returning them in order of
appearance with repeated mentions counted individually. -/
theorem C8_fallback_bare_scan :
    (∀ t : Str, splitFirst markerStr t = none →
      parse_ranking_from_text t = findBare t) ∧
    ∀ (bs : List BareTok) (trail : Str),
      splitFirst markerStr (renderBare bs trail) = none →
      (∀ b ∈ bs, bareWF b) → (∀ x ∈ trail, x ≠ 'R') →
      parse_ranking_from_text (renderBare bs trail) =
        bs.map fun b => respStr ++ [b.lab] := by
  constructor
  · intro t hmark
    unfold parse_ranking_from_text rankingSectionOf
    rw [hmark]
  · intro bs trail hmark hwf htrail
    unfold parse_ranking_from_text rankingSectionOf
    rw [hmark]
    exact findBare_renderBare bs trail hwf htrail

def c8Toks : List BareTok :=
  [⟨str "final ranking:\n1. ", 'A'⟩, ⟨str "\n2. ", 'A'⟩, ⟨str "\n3. ", 'B'⟩]

def c8Trail : Str := str " is last."

/-- Witness for C8 at a concrete critique whose marker is lowercase and
which mentions the same label twice. -/
theorem C8_fallback_bare_scan_witness :
    parse_ranking_from_text (renderBare c8Toks c8Trail) =
      [str "Response A", str "Response A", str "Response B"] :=
  (C8_fallback_bare_scan.2 c8Toks c8Trail (by decide) (by decide)
    (by decide)).trans (by decide)

/-! ### Dispatcher lemmas -/

theorem foldl_dictInsert {β : Type} (f : Str → β) :
    ∀ (models : List Str) (d : List (Str × β)),
      (∀ m ∈ models, m ∉ d.map Prod.fst) → models.Nodup →
      models.foldl (fun d m => dictInsert d m (f m)) d =
        d ++ models.map fun m => (m, f m) := by
  intro models
  induction models with
  | nil => intro d _ _; simp
  | cons m ms ih =>
    intro d hdisj hnd
    have hm : m ∉ d.map Prod.fst := hdisj m (by simp)
    have hins : dictInsert d m (f m) = d ++ [(m, f m)] := by
      unfold dictInsert
      rw [if_neg hm]
    simp only [List.foldl_cons, hins]
    rw [ih (d ++ [(m, f m)])]
    · simp
    · intro m' hm'
      simp only [List.map_append, List.mem_append]
      rintro (h | h)
      · exact hdisj m' (by simp [hm']) h
      · simp only [List.map_cons, List.map_nil, List.mem_cons, List.not_mem_nil,
          or_false] at h
        exact (List.nodup_cons.mp hnd).1 (h ▸ hm')
    · exact (List.nodup_cons.mp hnd).2

theorem qmp_nodup (models : List Str) (oracle : Str → QueryOutcome)
    (h : models.Nodup) :
    query_models_parallel models oracle =
      models.map fun m => (m, query_model (oracle m)) := by
  unfold query_models_parallel
  rw [foldl_dictInsert _ models [] (by simp) h]
  rfl

theorem lookupA_map_fn {β : Type} (f : Str → β) :
    ∀ (models : List Str) (m : Str), m ∈ models →
      lookupA (models.map fun m => (m, f m)) m = some (f m) := by
  intro models
  induction models with
  | nil => intro m hm; simp at hm
  | cons m' ms ih =>
    intro m hm
    show lookupA ((m', f m') :: ms.map fun m => (m, f m)) m = some (f m)
    unfold lookupA
    by_cases he : m' = m
    · rw [if_pos he, he]
    · rw [if_neg he]
      rcases List.mem_cons.mp hm with h | h
      · exact absurd h.symm he
      · exact ih m h

/-! ### Claim C7 -/

/-- C7: for every batch of pairwise-distinct requested model identifiers,
`query_models_parallel` returns a mapping whose keys are exactly the
requested identifiers in order, and every identifier — failed or not — maps
to its own gateway outcome (`none` for a failure). -/
theorem C7_dispatcher_all_keys (models : List Str) (oracle : Str → QueryOutcome)
    (h : models.Nodup) :
    (query_models_parallel models oracle).map Prod.fst = models ∧
    ∀ m ∈ models, lookupA (query_models_parallel models oracle) m =
      some (query_model (oracle m)) := by
  rw [qmp_nodup models oracle h]
  constructor
  · rw [List.map_map]
    have hid : (Prod.fst ∘ fun m => (m, query_model (oracle m))) = id := rfl
    rw [hid, List.map_id]
  · intro m hm
    exact lookupA_map_fn _ models m hm

def c7Models : List Str := [str "model-ok", str "model-down"]

def c7Oracle : Str → QueryOutcome := fun m =>
  if m = str "model-down" then .failure else .success ⟨some (str "ok"), none, none⟩

/-- Witness for C7: two requested models, one failing — both remain keys,
the failed one mapped to an absent result. -/
theorem C7_dispatcher_all_keys_witness :
    (query_models_parallel c7Models c7Oracle).map Prod.fst = c7Models ∧
    lookupA (query_models_parallel c7Models c7Oracle) (str "model-down") =
      some none :=
  ⟨(C7_dispatcher_all_keys c7Models c7Oracle (by decide)).1,
   ((C7_dispatcher_all_keys c7Models c7Oracle (by decide)).2
     (str "model-down") (by decide)).trans (by decide)⟩

/-! ### Claim C6 -/

theorem stage1_all_fail (user_query : Str) (oracle : Str → QueryOutcome)
    (h : ∀ m ∈ COUNCIL_MODELS, query_model (oracle m) = none) :
    stage1_collect_responses user_query oracle = [] := by
  have h1 := h (str "openai/gpt-5.1") (by simp [COUNCIL_MODELS])
  have h2 := h (str "google/gemini-3-pro-preview") (by simp [COUNCIL_MODELS])
  have h3 := h (str "anthropic/claude-opus-4.5") (by simp [COUNCIL_MODELS])
  have h4 := h (str "x-ai/grok-4") (by simp [COUNCIL_MODELS])
  have h5 := h (str "moonshotai/kimi-k2-thinking") (by simp [COUNCIL_MODELS])
  unfold stage1_collect_responses
  rw [qmp_nodup _ _ (by decide)]
  unfold COUNCIL_MODELS
  simp [List.filterMap_cons, h1, h2, h3, h4, h5]

/-- C6: when every stage-1 call fails, `run_full_council` ends the
deliberation immediately — empty stage-1 and stage-2 lists, the explicit
error payload in place of the stage-3 result, empty metadata — and no
exception, for every behaviour of the stage-2 and chairman oracles (so the
later stages are never consulted). -/
theorem C6_total_stage1_failure (w : World) (user_query : Str)
    (h : ∀ m ∈ COUNCIL_MODELS, query_model (w.stage1 m) = none) :
    run_full_council w user_query =
      .ok ([], [],
        ⟨str "error", some (str "All models failed to respond. Please try again."),
         none, none⟩, none) := by
  unfold run_full_council
  rw [stage1_all_fail user_query w.stage1 h]
  rfl

def c6World : World :=
  ⟨fun _ => .failure, fun _ => .success ⟨some (str "unused"), none, none⟩,
   fun _ => .failure⟩

/-- Witness for C6: all five council models fail while the stage-2 oracle
would have succeeded. -/
theorem C6_total_stage1_failure_witness :
    run_full_council c6World (str "any question") =
      .ok ([], [],
        ⟨str "error", some (str "All models failed to respond. Please try again."),
         none, none⟩, none) :=
  C6_total_stage1_failure c6World (str "any question") (fun _ _ => rfl)

/-! ### Claim C5 -/

/-- C5: the chairman query is attempted at most twice; the second attempt
happens exactly when the first returns no result; any non-null first result
— even one with empty or null content — ends the loop after one attempt;
and when both attempts fail, stage 3 returns the sentinel error result (the
chairman model identifier with a readable failure text) instead of raising. -/
theorem C5_chairman_retry (oracle : Nat → QueryOutcome) :
    (chairmanAttempts oracle).2 ≤ 2 ∧
    ((chairmanAttempts oracle).2 = 2 ↔ query_model (oracle 0) = none) ∧
    (∀ r, query_model (oracle 0) = some r → chairmanAttempts oracle = (some r, 1)) ∧
    (query_model (oracle 0) = none → query_model (oracle 1) = none →
      ∀ (user_query : Str) (s1 : List CouncilResult) (s2 : List RankingSubmission),
        stage3_synthesize_final user_query s1 s2 oracle =
          ⟨CHAIRMAN_MODEL, some (str "Error: Unable to generate final synthesis."),
           none, none⟩) := by
  cases h0 : query_model (oracle 0) with
  | none =>
    have ha : chairmanAttempts oracle = (query_model (oracle 1), 2) := by
      unfold chairmanAttempts
      rw [h0]
    refine ⟨by simp [ha], by simp [ha],
            fun r hr => absurd hr (by simp),
            fun _ h1 uq s1 s2 => ?_⟩
    unfold stage3_synthesize_final
    rw [ha]
    dsimp only
    rw [h1]
  | some r =>
    have ha : chairmanAttempts oracle = (some r, 1) := by
      unfold chairmanAttempts
      rw [h0]
    refine ⟨by simp [ha], by simp [ha],
            fun r' hr' => ?_,
            fun h => absurd h (by simp)⟩
    have hrr : r = r' := Option.some.inj hr'
    exact ha.trans (by rw [hrr])

def c5OracleEmpty : Nat → QueryOutcome := fun _ => .success ⟨some [], none, none⟩

def c5OracleFail : Nat → QueryOutcome := fun _ => .failure

/-- Witness for C5: an empty-content success stops after one attempt; a
doubly-failing oracle yields the sentinel error result. -/
theorem C5_chairman_retry_witness :
    chairmanAttempts c5OracleEmpty = (some ⟨some [], none, none⟩, 1) ∧
    stage3_synthesize_final (str "q") [] [] c5OracleFail =
      ⟨CHAIRMAN_MODEL, some (str "Error: Unable to generate final synthesis."),
       none, none⟩ :=
  ⟨(C5_chairman_retry c5OracleEmpty).2.2.1 _ rfl,
   (C5_chairman_retry c5OracleFail).2.2.2 rfl rfl (str "q") [] []⟩

/-! ### Claim C9 -/

/-- C9 (code-bug evidence): a successful exchange whose message carries a
null `content` field flows into the stage-1 results with a null `response`
value for every council model — the `''` default in
`response.get('content', '')` never applies because the key is present — so
the generated-text field of a folded result is not always a string. -/
theorem C9_null_content_not_string :
    (stage1_collect_responses (str "q")
        (fun _ => .success ⟨none, none, none⟩)).map CouncilResult.response =
      [none, none, none, none, none] := by decide
/-! ### Aggregator lemmas -/

theorem addPos_fst_of_mem {d : PosDict} {m : Str} (hm : m ∈ d.map Prod.fst)
    (p : Nat) : (addPos d m p).map Prod.fst = d.map Prod.fst := by
  induction d with
  | nil => simp at hm
  | cons e d ih =>
    obtain ⟨a, ps⟩ := e
    by_cases ha : a = m
    · simp [addPos, ha]
    · rcases List.mem_cons.mp hm with h | h
      · exact absurd h.symm ha
      · simp [addPos, ha, ih h]

theorem addPos_fst_of_not_mem {d : PosDict} {m : Str} (hm : m ∉ d.map Prod.fst)
    (p : Nat) : (addPos d m p).map Prod.fst = d.map Prod.fst ++ [m] := by
  induction d with
  | nil => rfl
  | cons e d ih =>
    obtain ⟨a, ps⟩ := e
    have ha : a ≠ m := fun h => hm (by simp [h])
    simp [addPos, ha, ih fun h => hm (by simp [h])]

theorem addPos_keys_nodup {d : PosDict} (h : (d.map Prod.fst).Nodup)
    (m : Str) (p : Nat) : ((addPos d m p).map Prod.fst).Nodup := by
  by_cases hm : m ∈ d.map Prod.fst
  · rw [addPos_fst_of_mem hm]
    exact h
  · rw [addPos_fst_of_not_mem hm]
    simp [List.nodup_append, h, hm]

theorem addPos_vals_nonempty {d : PosDict} (h : ∀ e ∈ d, e.2 ≠ [])
    (m : Str) (p : Nat) : ∀ e ∈ addPos d m p, e.2 ≠ [] := by
  induction d with
  | nil =>
    intro e he
    simp only [addPos, List.mem_singleton] at he
    simp [he]
  | cons e0 d ih =>
    obtain ⟨a, ps⟩ := e0
    intro e he
    unfold addPos at he
    by_cases ha : a = m
    · rw [if_pos ha] at he
      rcases List.mem_cons.mp he with h' | h'
      · simp [h']
      · exact h e (by simp [h'])
    · rw [if_neg ha] at he
      rcases List.mem_cons.mp he with h' | h'
      · exact h e (by simp [h'])
      · exact ih (fun e' he' => h e' (by simp [he'])) e h'

theorem posOf_addPos (d : PosDict) (m : Str) (p : Nat) (m' : Str) :
    posOf (addPos d m p) m' =
      if m' = m then posOf d m' ++ [p] else posOf d m' := by
  induction d with
  | nil =>
    by_cases h : m' = m
    · subst h
      simp [addPos, posOf]
    · have h2 : m ≠ m' := fun hh => h hh.symm
      simp [addPos, posOf, h, h2]
  | cons e d ih =>
    obtain ⟨a, ps⟩ := e
    by_cases ha : a = m
    · subst ha
      by_cases h' : m' = a
      · subst h'
        simp [addPos, posOf]
      · have h2 : a ≠ m' := fun hh => h' hh.symm
        simp [addPos, posOf, h', h2]
    · by_cases h' : a = m'
      · subst h'
        have h2 : ¬a = m := ha
        simp [addPos, posOf, ha, fun hh : a = m => ha hh]
      · simp [addPos, posOf, ha, h', ih]

theorem posOf_procLabels (ltm : List (Str × Str)) :
    ∀ (labs : List Str) (d : PosDict) (i : Nat) (m : Str),
      posOf (procLabels ltm d i labs) m =
        posOf d m ++ (enumFrom i labs).filterMap
          (fun p => if lookupA ltm p.2 = some m then some p.1 else none) := by
  intro labs
  induction labs with
  | nil => intro d i m; simp [procLabels, enumFrom]
  | cons lab rest ih =>
    intro d i m
    show posOf (procLabels ltm
        (match lookupA ltm lab with
         | some m0 => addPos d m0 i
         | none => d) (i + 1) rest) m = _
    rw [ih]
    show _ = posOf d m ++ List.filterMap _ ((i, lab) :: enumFrom (i + 1) rest)
    rw [List.filterMap_cons]
    cases hl : lookupA ltm lab with
    | none => simp
    | some m0 =>
      dsimp only
      by_cases hm : m0 = m
      · subst hm
        rw [posOf_addPos, if_pos rfl]
        simp [List.append_assoc]
      · rw [posOf_addPos, if_neg fun hh => hm hh.symm]
        simp [hm]

theorem procLabels_keys_nodup (ltm : List (Str × Str)) :
    ∀ (labs : List Str) (d : PosDict) (i : Nat),
      (d.map Prod.fst).Nodup → ((procLabels ltm d i labs).map Prod.fst).Nodup := by
  intro labs
  induction labs with
  | nil => intro d i h; exact h
  | cons lab rest ih =>
    intro d i h
    show ((procLabels ltm
        (match lookupA ltm lab with
         | some m0 => addPos d m0 i
         | none => d) (i + 1) rest).map Prod.fst).Nodup
    cases lookupA ltm lab with
    | none => exact ih d (i + 1) h
    | some m0 => exact ih (addPos d m0 i) (i + 1) (addPos_keys_nodup h m0 i)

theorem procLabels_vals_nonempty (ltm : List (Str × Str)) :
    ∀ (labs : List Str) (d : PosDict) (i : Nat),
      (∀ e ∈ d, e.2 ≠ []) → ∀ e ∈ procLabels ltm d i labs, e.2 ≠ [] := by
  intro labs
  induction labs with
  | nil => intro d i h; exact h
  | cons lab rest ih =>
    intro d i h
    show ∀ e ∈ procLabels ltm
        (match lookupA ltm lab with
         | some m0 => addPos d m0 i
         | none => d) (i + 1) rest, e.2 ≠ []
    cases lookupA ltm lab with
    | none => exact ih d (i + 1) h
    | some m0 => exact ih (addPos d m0 i) (i + 1) (addPos_vals_nonempty h m0 i)

theorem modelPositions_keys_nodup (subs : List RankingSubmission)
    (ltm : List (Str × Str)) : ((modelPositions subs ltm).map Prod.fst).Nodup := by
  unfold modelPositions
  have main : ∀ (l : List RankingSubmission) (d : PosDict), (d.map Prod.fst).Nodup →
      ((l.foldl (fun d s => procLabels ltm d 1 (parse_ranking_from_text s.ranking)) d).map
        Prod.fst).Nodup := by
    intro l
    induction l with
    | nil => intro d h; exact h
    | cons s l ih =>
      intro d h
      exact ih _ (procLabels_keys_nodup ltm _ d 1 h)
  exact main subs [] (by simp)

theorem modelPositions_vals_nonempty (subs : List RankingSubmission)
    (ltm : List (Str × Str)) : ∀ e ∈ modelPositions subs ltm, e.2 ≠ [] := by
  unfold modelPositions
  have main : ∀ (l : List RankingSubmission) (d : PosDict), (∀ e ∈ d, e.2 ≠ []) →
      ∀ e ∈ l.foldl (fun d s => procLabels ltm d 1 (parse_ranking_from_text s.ranking)) d,
        e.2 ≠ [] := by
    intro l
    induction l with
    | nil => intro d h; exact h
    | cons s l ih =>
      intro d h
      exact ih _ (procLabels_vals_nonempty ltm _ d 1 h)
  exact main subs [] (by simp)

/-! ### Claim C4 -/

/-- C4: in the aggregation pass, every model's recorded position list is
exactly the list of literal 1-based positions — counted over the reviewer's
full parsed label list, unresolvable entries included — of the entries that
resolve to that model through the label mapping; labels absent from the
mapping contribute no position to any model and their removal does not shift
the other labels' credited positions. -/
theorem C4_literal_positions (subs : List RankingSubmission)
    (ltm : List (Str × Str)) (m : Str) :
    posOf (modelPositions subs ltm) m =
      (subs.map fun s =>
        (enumFrom 1 (parse_ranking_from_text s.ranking)).filterMap
          (fun p => if lookupA ltm p.2 = some m then some p.1 else none)).flatten := by
  unfold modelPositions
  have main : ∀ (l : List RankingSubmission) (d : PosDict),
      posOf (l.foldl (fun d s => procLabels ltm d 1 (parse_ranking_from_text s.ranking)) d) m =
        posOf d m ++ (l.map fun s =>
          (enumFrom 1 (parse_ranking_from_text s.ranking)).filterMap
            (fun p => if lookupA ltm p.2 = some m then some p.1 else none)).flatten := by
    intro l
    induction l with
    | nil => intro d; simp
    | cons s l ih =>
      intro d
      show posOf (l.foldl _ (procLabels ltm d 1 (parse_ranking_from_text s.ranking))) m = _
      rw [ih, posOf_procLabels]
      simp [List.append_assoc]
  have := main subs []
  simpa using this

theorem posOf_of_mem {d : PosDict} (hnd : (d.map Prod.fst).Nodup)
    {m : Str} {ps : List Nat} (hm : (m, ps) ∈ d) : posOf d m = ps := by
  induction d with
  | nil => simp at hm
  | cons e d ih =>
    obtain ⟨a, qs⟩ := e
    rcases List.mem_cons.mp hm with h | h
    · obtain ⟨h1, h2⟩ := Prod.mk.injEq .. ▸ h.symm
      simp [posOf, h1.symm, h2]
    · have ha : a ≠ m := by
        intro hh
        subst hh
        exact (List.nodup_cons.mp hnd).1
          (List.mem_map.mpr ⟨(a, ps), h, rfl⟩)
      simp only [posOf, if_neg ha]
      exact ih (List.nodup_cons.mp hnd).2 h

theorem mem_keys_iff_posOf {d : PosDict} (h : ∀ e ∈ d, e.2 ≠ []) (m : Str) :
    m ∈ d.map Prod.fst ↔ posOf d m ≠ [] := by
  induction d with
  | nil => simp [posOf]
  | cons e d ih =>
    obtain ⟨a, ps⟩ := e
    by_cases ha : a = m
    · subst ha
      have hps : ps ≠ [] := h (a, ps) (by simp)
      simp [posOf, hps]
    · have ham : ¬m = a := fun hh => ha hh.symm
      simp only [List.map_cons, List.mem_cons, ham, false_or, posOf, if_neg ha]
      exact ih fun e he => h e (by simp [he])

theorem aggregateEntries_eq_map {d : PosDict} (h : ∀ e ∈ d, e.2 ≠ []) :
    aggregateEntries d = d.map fun p =>
      ⟨p.1, round2 ((p.2.sum : ℚ) / (p.2.length : ℚ)), p.2.length⟩ := by
  induction d with
  | nil => rfl
  | cons e d ih =>
    obtain ⟨a, ps⟩ := e
    have hne : ps.isEmpty = false := by
      cases ps with
      | nil => exact absurd rfl (h (a, []) (by simp))
      | cons q qs => rfl
    unfold aggregateEntries
    rw [List.filterMap_cons]
    simp only [hne, Bool.false_eq_true, if_false]
    rw [List.map_cons]
    congr 1
    exact ih fun e he => h e (by simp [he])

/-! ### Stability of the final sort -/

theorem filter_orderedInsert (q : ℚ) (a : AggregateRankEntry)
    (l : List AggregateRankEntry) :
    (l.orderedInsert aggLe a).filter (fun e => decide (e.average_rank = q)) =
      if a.average_rank = q then
        a :: l.filter (fun e => decide (e.average_rank = q))
      else l.filter (fun e => decide (e.average_rank = q)) := by
  induction l with
  | nil =>
    by_cases haq : a.average_rank = q <;>
      simp [List.orderedInsert, List.filter_cons, haq]
  | cons b l ih =>
    show (if aggLe a b then a :: b :: l else b :: l.orderedInsert aggLe a).filter _ = _
    by_cases hab : aggLe a b
    · rw [if_pos hab]
      by_cases haq : a.average_rank = q <;>
        simp [List.filter_cons, haq]
    · rw [if_neg hab]
      by_cases haq : a.average_rank = q
      · have hbq : ¬b.average_rank = q := by
          intro hb
          exact hab (le_of_eq (haq.trans hb.symm))
        simp [List.filter_cons, hbq, ih, haq]
      · by_cases hbq : b.average_rank = q <;>
          simp [List.filter_cons, hbq, ih, haq]

theorem filter_insertionSort (q : ℚ) (l : List AggregateRankEntry) :
    (l.insertionSort aggLe).filter (fun e => decide (e.average_rank = q)) =
      l.filter (fun e => decide (e.average_rank = q)) := by
  induction l with
  | nil => rfl
  | cons a l ih =>
    show ((l.insertionSort aggLe).orderedInsert aggLe a).filter _ = _
    rw [filter_orderedInsert, ih]
    by_cases haq : a.average_rank = q <;> simp [List.filter_cons, haq]

/-! ### Claim C2 -/

/-- C2: the aggregate contains exactly one entry per model that received at
least one resolvable position (pre-sort order is the first-mention encounter
order); each entry's `average_rank` is the mean of the model's recorded
1-based positions rounded to two decimals and `rankings_count` their number;
a model with zero mentions is absent; the output is sorted ascending by
`average_rank`; and entries with equal averages keep their encounter order
(the sort is stable: filtering any average value commutes with sorting). -/
theorem C2_aggregate_rankings (subs : List RankingSubmission)
    (ltm : List (Str × Str)) :
    ((aggregateEntries (modelPositions subs ltm)).map AggregateRankEntry.model =
      (modelPositions subs ltm).map Prod.fst) ∧
    (∀ e ∈ calculate_aggregate_rankings subs ltm,
      posOf (modelPositions subs ltm) e.model ≠ [] ∧
      e.average_rank = round2
        (((posOf (modelPositions subs ltm) e.model).sum : ℚ) /
          ((posOf (modelPositions subs ltm) e.model).length : ℚ)) ∧
      e.rankings_count = (posOf (modelPositions subs ltm) e.model).length) ∧
    ((calculate_aggregate_rankings subs ltm).map AggregateRankEntry.model).Nodup ∧
    (∀ m : Str, (∃ e ∈ calculate_aggregate_rankings subs ltm, e.model = m) ↔
      posOf (modelPositions subs ltm) m ≠ []) ∧
    List.Sorted aggLe (calculate_aggregate_rankings subs ltm) ∧
    (∀ q : ℚ, (calculate_aggregate_rankings subs ltm).filter
        (fun e => decide (e.average_rank = q)) =
      (aggregateEntries (modelPositions subs ltm)).filter
        (fun e => decide (e.average_rank = q))) := by
  have hval := modelPositions_vals_nonempty subs ltm
  have hnd := modelPositions_keys_nodup subs ltm
  have hmap := aggregateEntries_eq_map hval
  have hperm : List.Perm (calculate_aggregate_rankings subs ltm)
      (aggregateEntries (modelPositions subs ltm)) :=
    List.perm_insertionSort aggLe _
  have hmodels : (aggregateEntries (modelPositions subs ltm)).map
      AggregateRankEntry.model = (modelPositions subs ltm).map Prod.fst := by
    rw [hmap, List.map_map]
    rfl
  refine ⟨hmodels, ?_, ?_, ?_, ?_, ?_⟩
  · intro e he
    have he' : e ∈ aggregateEntries (modelPositions subs ltm) :=
      hperm.mem_iff.mp he
    rw [hmap] at he'
    obtain ⟨p, hp, rfl⟩ := List.mem_map.mp he'
    have hpair : (p.1, p.2) ∈ modelPositions subs ltm := by
      rw [Prod.mk.eta]
      exact hp
    have hpos : posOf (modelPositions subs ltm) p.1 = p.2 :=
      posOf_of_mem hnd hpair
    dsimp only
    rw [hpos]
    exact ⟨hval p hp, rfl, rfl⟩
  · rw [(hperm.map AggregateRankEntry.model).nodup_iff, hmodels]
    exact hnd
  · intro m
    have h1 : (∃ e ∈ calculate_aggregate_rankings subs ltm, e.model = m) ↔
        m ∈ (aggregateEntries (modelPositions subs ltm)).map
          AggregateRankEntry.model := by
      simp only [List.mem_map]
      constructor
      · rintro ⟨e, he, hm⟩
        exact ⟨e, hperm.mem_iff.mp he, hm⟩
      · rintro ⟨e, he, hm⟩
        exact ⟨e, hperm.mem_iff.mpr he, hm⟩
    rw [h1, hmodels]
    exact mem_keys_iff_posOf hval m
  · exact List.sorted_insertionSort aggLe _
  · intro q
    exact filter_insertionSort q _

def c2Subs : List RankingSubmission :=
  [⟨str "reviewer-1",
    str "FINAL RANKING:\n1. Response A\n2. Response B\n3. Response C",
    [], none, none⟩,
   ⟨str "reviewer-2",
    str "FINAL RANKING:\n1. Response B\n2. Response A",
    [], none, none⟩]

def c2Ltm : List (Str × Str) :=
  [(str "Response A", str "gpt"), (str "Response B", str "claude"),
   (str "Response C", str "gem")]

/-- Witness for C2: two reviewers, a tie on average 1.5 and one model ranked
once; a never-mentioned model is absent. -/
theorem C2_aggregate_rankings_witness :
    List.Sorted aggLe (calculate_aggregate_rankings c2Subs c2Ltm) ∧
    ((calculate_aggregate_rankings c2Subs c2Ltm).map
      AggregateRankEntry.model).Nodup ∧
    ((∃ e ∈ calculate_aggregate_rankings c2Subs c2Ltm,
        e.model = str "never-mentioned") ↔
      posOf (modelPositions c2Subs c2Ltm) (str "never-mentioned") ≠ []) :=
  ⟨(C2_aggregate_rankings c2Subs c2Ltm).2.2.2.2.1,
   (C2_aggregate_rankings c2Subs c2Ltm).2.2.1,
   (C2_aggregate_rankings c2Subs c2Ltm).2.2.2.1 (str "never-mentioned")⟩

/-! ### Token shape of parser output -/

/-- A string of the exact shape `Response X` with `X` a capital letter. -/
def isRespTok (lab : Str) : Bool :=
  isStart respStr lab &&
    match lab.drop respStr.length with
    | [c] => upperAZ c
    | _ => false

theorem isRespTok_token (c : Char) (hc : upperAZ c = true) :
    isRespTok (respStr ++ [c]) = true := by
  have h6 : (respStr ++ [c]).drop respStr.length = [c] := List.drop_left _ _
  simp [isRespTok, isStart_self_append, h6, hc]

theorem tryNumbered_tok {l : Str} {t : Str} {k : Nat}
    (h : tryNumbered l = some (t, k)) : isRespTok t = true := by
  unfold tryNumbered at h
  dsimp only at h
  split at h
  · exact absurd h (by simp)
  · split at h
    · split at h
      · split at h
        · split at h
          · rename_i hup
            simp only [Option.some.injEq, Prod.mk.injEq] at h
            obtain ⟨ht, _⟩ := h
            subst ht
            exact isRespTok_token _ hup
          · exact absurd h (by simp)
        · exact absurd h (by simp)
      · exact absurd h (by simp)
    · exact absurd h (by simp)

theorem tryBare_tok {l : Str} {t : Str} {k : Nat}
    (h : tryBare l = some (t, k)) : isRespTok t = true := by
  unfold tryBare at h
  split at h
  · split at h
    · split at h
      · rename_i hup
        simp only [Option.some.injEq, Prod.mk.injEq] at h
        obtain ⟨ht, _⟩ := h
        subst ht
        exact isRespTok_token _ hup
      · exact absurd h (by simp)
    · exact absurd h (by simp)
  · exact absurd h (by simp)

theorem findNumberedF_tokens :
    ∀ (fuel : Nat) (l : Str), ∀ t ∈ findNumberedF fuel l, isRespTok t = true := by
  intro fuel
  induction fuel with
  | zero => intro l t ht; simp [findNumberedF] at ht
  | succ fuel ih =>
    intro l t
    match l with
    | [] => intro ht; simp [findNumberedF] at ht
    | c :: rest =>
      show t ∈ (match tryNumbered (c :: rest) with
                | some (tok, k) => tok :: findNumberedF fuel ((c :: rest).drop k)
                | none => findNumberedF fuel rest) → _
      cases htn : tryNumbered (c :: rest) with
      | some p =>
        obtain ⟨tok, k⟩ := p
        intro ht
        rcases List.mem_cons.mp ht with h | h
        · subst h
          exact tryNumbered_tok htn
        · exact ih _ t h
      | none =>
        intro ht
        exact ih _ t ht

theorem findBareF_tokens :
    ∀ (fuel : Nat) (l : Str), ∀ t ∈ findBareF fuel l, isRespTok t = true := by
  intro fuel
  induction fuel with
  | zero => intro l t ht; simp [findBareF] at ht
  | succ fuel ih =>
    intro l t
    match l with
    | [] => intro ht; simp [findBareF] at ht
    | c :: rest =>
      show t ∈ (match tryBare (c :: rest) with
                | some (tok, k) => tok :: findBareF fuel ((c :: rest).drop k)
                | none => findBareF fuel rest) → _
      cases htn : tryBare (c :: rest) with
      | some p =>
        obtain ⟨tok, k⟩ := p
        intro ht
        rcases List.mem_cons.mp ht with h | h
        · subst h
          exact tryBare_tok htn
        · exact ih _ t h
      | none =>
        intro ht
        exact ih _ t ht

theorem parse_ranking_tokens (text : Str) :
    ∀ t ∈ parse_ranking_from_text text, isRespTok t = true := by
  intro t ht
  unfold parse_ranking_from_text at ht
  cases hs : rankingSectionOf text with
  | some sec =>
    rw [hs] at ht
    dsimp only at ht
    by_cases hne : (findNumbered sec).isEmpty
    · rw [if_pos hne] at ht
      exact findBareF_tokens _ _ t ht
    · rw [if_neg hne] at ht
      exact findNumberedF_tokens _ _ t ht
  | none =>
    rw [hs] at ht
    exact findBareF_tokens _ _ t ht

/-! ### Stage-2 submission characterization -/

/-- The value `buildSubmissions` produces when it does not raise: one
submission per successful response, holding the raw text, its parse, and the
truthy reasoning fields. -/
def submissionOf (p : Str × Option ModelResponse) : Option RankingSubmission :=
  match p.2 with
  | none => none
  | some r =>
    match r.content with
    | none => none
    | some full_text =>
      some ⟨p.1, full_text, parse_ranking_from_text full_text,
            keepTruthy r.reasoning_details, keepTruthy r.thinking⟩

theorem buildSubmissions_ok :
    ∀ (pairs : List (Str × Option ModelResponse)) (subs : List RankingSubmission),
      buildSubmissions pairs = .ok subs → subs = pairs.filterMap submissionOf := by
  intro pairs
  induction pairs with
  | nil =>
    intro subs h
    simp only [buildSubmissions, Except.ok.injEq] at h
    simp [← h]
  | cons p pairs ih =>
    obtain ⟨m, or⟩ := p
    intro subs h
    cases or with
    | none =>
      show subs = List.filterMap submissionOf ((m, none) :: pairs)
      rw [List.filterMap_cons]
      exact ih subs h
    | some r =>
      show subs = List.filterMap submissionOf ((m, some r) :: pairs)
      rw [List.filterMap_cons]
      have hdef : buildSubmissions ((m, some r) :: pairs) =
          match r.content with
          | none => .error ()
          | some full_text =>
            (buildSubmissions pairs).map fun subs =>
              ⟨m, full_text, parse_ranking_from_text full_text,
               keepTruthy r.reasoning_details, keepTruthy r.thinking⟩ :: subs := rfl
      rw [hdef] at h
      cases hc : r.content with
      | none =>
        rw [hc] at h
        exact absurd h (by simp)
      | some full_text =>
        rw [hc] at h
        cases hb : buildSubmissions pairs with
        | error e =>
          rw [hb] at h
          exact absurd h (by simp [Except.map])
        | ok subs' =>
          rw [hb] at h
          simp only [Except.map, Except.ok.injEq] at h
          have hsub : submissionOf (m, some r) =
              some ⟨m, full_text, parse_ranking_from_text full_text,
                    keepTruthy r.reasoning_details, keepTruthy r.thinking⟩ := by
            simp only [submissionOf, hc]
          rw [hsub]
          dsimp only
          rw [← h, ← ih subs' hb]

theorem stage2_ok_subs {user_query : Str} {oracle : Str → QueryOutcome}
    {s1 : List CouncilResult} {subs : List RankingSubmission}
    {ltm : List (Str × Str)}
    (h : stage2_collect_rankings user_query oracle s1 = .ok (subs, ltm)) :
    subs = (query_models_parallel COUNCIL_MODELS oracle).filterMap submissionOf := by
  unfold stage2_collect_rankings at h
  cases hb : buildSubmissions (query_models_parallel COUNCIL_MODELS oracle) with
  | error e =>
    rw [hb] at h
    exact absurd h (by simp)
  | ok subs' =>
    rw [hb] at h
    simp only [Except.ok.injEq, Prod.mk.injEq] at h
    rw [← h.1]
    exact buildSubmissions_ok _ subs' hb

theorem stage2_parsed_eq {user_query : Str} {oracle : Str → QueryOutcome}
    {s1 : List CouncilResult} {subs : List RankingSubmission}
    {ltm : List (Str × Str)}
    (h : stage2_collect_rankings user_query oracle s1 = .ok (subs, ltm)) :
    ∀ s ∈ subs, s.parsed_ranking = parse_ranking_from_text s.ranking := by
  intro s hs
  rw [stage2_ok_subs h] at hs
  obtain ⟨p, _, hsp⟩ := List.mem_filterMap.mp hs
  obtain ⟨m, or⟩ := p
  cases or with
  | none => exact absurd hsp (by simp [submissionOf])
  | some r =>
    cases hc : r.content with
    | none =>
      rw [show submissionOf (m, some r) = none by simp [submissionOf, hc]] at hsp
      exact absurd hsp (by simp)
    | some full_text =>
      rw [show submissionOf (m, some r) =
          some ⟨m, full_text, parse_ranking_from_text full_text,
                keepTruthy r.reasoning_details, keepTruthy r.thinking⟩ by
        simp [submissionOf, hc]] at hsp
      rw [← Option.some.inj hsp]

/-! ### Claim C3 -/

def c3Oracle : Str → QueryOutcome := fun m =>
  if m = str "openai/gpt-5.1" then
    .success ⟨some (str "FINAL RANKING:\n1. Response A\n2. Response A\n3. Response Z"),
              none, none⟩
  else .failure

def c3Stage1 : List CouncilResult := [⟨str "m1", some (str "an answer"), none, none⟩]

def c3SubVal : RankingSubmission :=
  ⟨str "openai/gpt-5.1",
   str "FINAL RANKING:\n1. Response A\n2. Response A\n3. Response Z",
   [str "Response A", str "Response A", str "Response Z"], none, none⟩

def c3LtmVal : List (Str × Str) := [(str "Response A", str "m1")]

/-- C3 as stated is false: a reviewer critique listing the same label twice
and a label outside the deliberation's label set yields a Stage-2 submission
whose parsed ranking has a duplicate and an unknown label. -/
theorem C3_counterexample :
    ¬ ∀ (subs : List RankingSubmission) (ltm : List (Str × Str)),
        stage2_collect_rankings (str "q") c3Oracle c3Stage1 = .ok (subs, ltm) →
        ∀ s ∈ subs, s.parsed_ranking.Nodup ∧
          ∀ lab ∈ s.parsed_ranking, lab ∈ ltm.map Prod.fst := by
  intro h
  have h2 := h [c3SubVal] c3LtmVal rfl c3SubVal (by decide)
  exact absurd h2.1 (by decide)

/-- C3 (amended): the parsed list of a Stage-2 submission may contain
duplicates and labels outside the deliberation's label set, but every parsed
entry is a token of the shape `Response X` with `X` a capital letter, the
stored parse is exactly the parser's output on the stored critique, and the
raw critique text is always retained (the submissions are precisely the
successful responses, keeping the full response text even when its parse is
empty). -/
theorem C3_submission_invariants (user_query : Str) (oracle : Str → QueryOutcome)
    (s1 : List CouncilResult) (subs : List RankingSubmission)
    (ltm : List (Str × Str))
    (h : stage2_collect_rankings user_query oracle s1 = .ok (subs, ltm)) :
    subs = (query_models_parallel COUNCIL_MODELS oracle).filterMap submissionOf ∧
    ∀ s ∈ subs, s.parsed_ranking = parse_ranking_from_text s.ranking ∧
      ∀ lab ∈ s.parsed_ranking, isRespTok lab = true := by
  refine ⟨stage2_ok_subs h, fun s hs => ⟨stage2_parsed_eq h s hs, fun lab hl => ?_⟩⟩
  rw [stage2_parsed_eq h s hs] at hl
  exact parse_ranking_tokens s.ranking lab hl

/-- Witness for the amended C3 at the concrete duplicate-label run. -/
theorem C3_submission_invariants_witness :
    c3SubVal.parsed_ranking = parse_ranking_from_text c3SubVal.ranking ∧
    ∀ lab ∈ c3SubVal.parsed_ranking, isRespTok lab = true :=
  (C3_submission_invariants (str "q") c3Oracle c3Stage1 [c3SubVal] c3LtmVal
    rfl).2 c3SubVal (by decide)

/-! ### Claim C10 -/

theorem foldl_positions_congr (ltm : List (Str × Str))
    (subs : List RankingSubmission)
    (h : ∀ s ∈ subs, s.parsed_ranking = parse_ranking_from_text s.ranking) :
    ∀ d : PosDict,
      subs.foldl (fun d s => procLabels ltm d 1 (parse_ranking_from_text s.ranking)) d =
        subs.foldl (fun d s => procLabels ltm d 1 s.parsed_ranking) d := by
  induction subs with
  | nil => intro d; rfl
  | cons s subs ih =>
    intro d
    show subs.foldl _ (procLabels ltm d 1 (parse_ranking_from_text s.ranking)) = _
    rw [← h s (by simp)]
    exact ih (fun s' hs' => h s' (by simp [hs'])) _

/-- C10: the aggregator re-parses each submission's raw critique text, but
for every submission produced by Stage 2 the stored `parsed_ranking` equals
that re-parse, so aggregating from the stored field and aggregating from the
re-parse give the same result for every label mapping. -/
theorem C10_stored_equals_reparsed (user_query : Str)
    (oracle : Str → QueryOutcome) (s1 : List CouncilResult)
    (subs : List RankingSubmission) (ltm0 : List (Str × Str))
    (h : stage2_collect_rankings user_query oracle s1 = .ok (subs, ltm0)) :
    (∀ s ∈ subs, s.parsed_ranking = parse_ranking_from_text s.ranking) ∧
    ∀ ltm : List (Str × Str),
      calculate_aggregate_rankings subs ltm =
        calculate_aggregate_rankings_stored subs ltm := by
  refine ⟨stage2_parsed_eq h, fun ltm => ?_⟩
  unfold calculate_aggregate_rankings calculate_aggregate_rankings_stored
    modelPositions
  rw [foldl_positions_congr ltm subs (stage2_parsed_eq h)]

def c10Text : Str := str "FINAL RANKING:\n1. Response A\n2. Response B"

def c10Sub (m : String) : RankingSubmission :=
  ⟨str m, c10Text, [str "Response A", str "Response B"], none, none⟩

def c10Oracle : Str → QueryOutcome := fun m =>
  if m = str "x-ai/grok-4" then .failure
  else .success ⟨some c10Text, none, none⟩

def c10Stage1 : List CouncilResult :=
  [⟨str "m1", some (str "first answer"), none, none⟩,
   ⟨str "m2", some (str "second answer"), none, none⟩]

def c10Subs : List RankingSubmission :=
  [c10Sub "openai/gpt-5.1", c10Sub "google/gemini-3-pro-preview",
   c10Sub "anthropic/claude-opus-4.5", c10Sub "moonshotai/kimi-k2-thinking"]

def c10Ltm : List (Str × Str) :=
  [(str "Response A", str "m1"), (str "Response B", str "m2")]

/-- Witness for C10: a concrete Stage-2 run with one failing reviewer; both
aggregation routes coincide. -/
theorem C10_stored_equals_reparsed_witness :
    calculate_aggregate_rankings c10Subs c10Ltm =
      calculate_aggregate_rankings_stored c10Subs c10Ltm :=
  (C10_stored_equals_reparsed (str "q") c10Oracle c10Stage1 c10Subs c10Ltm
    rfl).2 c10Ltm
